import Mathlib

/-!
Verification of the PageManager pagination core of
`discordjs-choice-selectmenu-builder`.

The TypeScript class `PageManager<T>` (src/PageManager.ts) is shallowly
embedded below.  JavaScript numbers that only ever hold integer values are
modelled as `Int`; `Math.ceil(a / b)` on integer operands is modelled by
`jsCeilDiv` (proved equal to the rational ceiling for nonzero divisors);
`Array.prototype.slice` with its negative-index semantics is modelled by
`jsSlice`; the insertion-ordered `Collection<number, T>` of selected entries
is modelled as a `List (Int × α)` in insertion order.  `getPage`, which can
throw, returns `Except String _`.
-/

namespace ChoiceMenu

/-- The fixed page capacity (`PageManager.length = 25`). -/
def pageLen : Int := 25

/-- Embeds `Math.ceil(a / b)` for integer operands and nonzero `b`
(see `jsCeilDiv_eq_ceil`).  At `b = 0` JavaScript produces a non-integer
(`NaN` or `±Infinity`), which has no counterpart here. -/
def jsCeilDiv (a b : Int) : Int :=
  if 0 ≤ b then -((-a) / b) else -(a / (-b))

/-- Embeds `Array.prototype.slice(s, e)`: negative bounds count from the end
of the array, and the bounds are clamped to `[0, length]`. -/
def jsSlice {α : Type} (l : List α) (s e : Int) : List α :=
  let n : Int := l.length
  let s' : Int := if s < 0 then max (n + s) 0 else min s n
  let e' : Int := if e < 0 then max (n + e) 0 else min e n
  (l.drop s'.toNat).take (e' - s').toNat

/-- Embeds `array.map((e, i) => [i + start, e])`: tags each element of a list
with consecutive indices starting at `s`. -/
def tagFrom {α : Type} (s : Int) : List α → List (Int × α)
  | [] => []
  | x :: xs => (s, x) :: tagFrom (s + 1) xs

/-- State of a `PageManager<T>` instance (src/PageManager.ts).
`selected` is the insertion-ordered `Collection<number, T>` of selected
entries, keyed by original index. -/
structure PageManager (α : Type) where
  array : List α
  selected : List (Int × α)
  minChoices : Nat
  maxChoices : Option Nat
  current : Int

/-- `get carrySelected(): boolean { return this.minChoices > 0; }` -/
def PageManager.carrySelected {α : Type} (m : PageManager α) : Bool :=
  decide (0 < m.minChoices)

/-- `get max(): number` — the maximum 0-indexed page. -/
def PageManager.max {α : Type} (m : PageManager α) : Int :=
  if ¬ m.carrySelected then
    jsCeilDiv (m.array.length : Int) pageLen - 1
  else
    jsCeilDiv ((m.array.length : Int) - (m.selected.length : Int))
      (pageLen - (m.selected.length : Int)) - 1

/-- `this.selected.has(i)` — membership of a key in the selection. -/
def PageManager.hasKey {α : Type} (m : PageManager α) (k : Int) : Bool :=
  m.selected.any (fun p => p.1 == k)

/-- `private getSlice(start, end, removeSelected)` — a slice of the array
tagged with its actual index locations, optionally with selected indices
removed and truncated to the remaining capacity. -/
def PageManager.getSlice {α : Type} (m : PageManager α)
    (start e : Int) (removeSelected : Bool) : List (Int × α) :=
  let newSlice := tagFrom start (jsSlice m.array start e)
  if ¬ removeSelected then newSlice
  else
    jsSlice (newSlice.filter (fun p => ¬ m.hasKey p.1))
      0 (pageLen - (m.selected.length : Int))

/-- `private getEndIndex(start, selectedIndeces)` — end index of the page
starting at `start`, extended by the selected keys lying inside the raw
window. -/
def getEndIndex (start : Int) (selectedIndeces : List Int) : Int :=
  let e := start + pageLen
  e - (selectedIndeces.length : Int) +
    ((selectedIndeces.filter (fun i => decide (start ≤ i) && decide (i < e))).length : Int)

/-- The `while (currentPage < page)` loop of `getPage`: iterates
`getEndIndex` from a start offset of `0`. -/
def walkStart (keys : List Int) : Nat → Int
  | 0 => 0
  | n + 1 => getEndIndex (walkStart keys n) keys

/-- `getPage(pageNumber?)` — the `(index, element)` pairs of the requested
page.  The `throw new Error(...)` branch is modelled by `Except.error`. -/
def PageManager.getPage {α : Type} (m : PageManager α)
    (pageNumber : Option Int) : Except String (List (Int × α)) :=
  let page := min m.max (pageNumber.getD m.current)
  if ¬ m.carrySelected then
    let start := page * pageLen
    .ok (m.getSlice start (start + pageLen) false)
  else
    let keys := m.selected.map Prod.fst
    let start := walkStart keys page.toNat
    let e := getEndIndex start keys
    let output := m.selected ++ m.getSlice start e true
    if pageLen < (output.length : Int) then
      .error ("Generated page exceeds set page length.")
    else
      .ok output

/-- `private hasFreePageMovement(): boolean` -/
def PageManager.hasFreePageMovement {α : Type} (m : PageManager α) : Bool :=
  m.carrySelected
    || decide ((m.array.length : Int) ≤ pageLen)
    || decide (m.selected.length < m.maxChoices.getD m.array.length)

/-- `Math.min(...keys)` over a list of keys; `none` models the `-Infinity`
result on an empty spread (rejected by the `isFinite` guards). -/
def listMin? : List Int → Option Int
  | [] => none
  | x :: xs =>
    some (match listMin? xs with
          | none => x
          | some y => min x y)

/-- `Math.max(...keys)` over a list of keys; `none` models the `-Infinity`
result on an empty spread (rejected by the `isFinite` guards). -/
def listMax? : List Int → Option Int
  | [] => none
  | x :: xs =>
    some (match listMax? xs with
          | none => x
          | some y => max x y)

/-- The page-from-index computation shared by the constrained branches of
`first`/`previous`/`next`/`last`:
`Math.ceil(i / length)`, decremented when `i % length !== 0`
(JavaScript `%` is truncated remainder, i.e. `Int.tmod`). -/
def pageFromIndex (i : Int) : Int :=
  let c := jsCeilDiv i pageLen
  if i.tmod pageLen ≠ 0 then c - 1 else c

/-- `public first(): void` -/
def PageManager.first {α : Type} (m : PageManager α) : PageManager α :=
  if m.hasFreePageMovement then { m with current := 0 }
  else
    match listMin? (m.selected.map Prod.fst) with
    | none => m
    | some minSelected => { m with current := pageFromIndex minSelected }

/-- `public previous(): void` -/
def PageManager.previous {α : Type} (m : PageManager α) : PageManager α :=
  if m.hasFreePageMovement then { m with current := Max.max 0 (m.current - 1) }
  else
    let currentPageStart := m.current * pageLen
    match listMax?
        ((m.selected.filter (fun p => decide (p.1 < currentPageStart))).map Prod.fst) with
    | none => m
    | some maxPreviousIndex => { m with current := pageFromIndex maxPreviousIndex }

/-- `public next(): void` -/
def PageManager.next {α : Type} (m : PageManager α) : PageManager α :=
  if m.hasFreePageMovement then { m with current := min m.max (m.current + 1) }
  else
    let currentPageEnd := m.current * pageLen + pageLen
    match listMin?
        ((m.selected.filter (fun p => decide (currentPageEnd ≤ p.1))).map Prod.fst) with
    | none => m
    | some minNextIndex => { m with current := pageFromIndex minNextIndex }

/-- `public last(): void` -/
def PageManager.last {α : Type} (m : PageManager α) : PageManager α :=
  if m.hasFreePageMovement then { m with current := m.max }
  else
    match listMax? (m.selected.map Prod.fst) with
    | none => m
    | some maxSelected => { m with current := pageFromIndex maxSelected }

/-- A non-carry two-page example state: 30 items, nothing selected. -/
def mPlain : PageManager Nat :=
  { array := List.range 30, selected := [], minChoices := 0
    maxChoices := none, current := 0 }

/-- A carry-mode example state: 30 items, items 26 and 3 selected (in that
insertion order), `minChoices = maxChoices = 2`. -/
def mCarry : PageManager Nat :=
  { array := List.range 30, selected := [(26, 26), (3, 3)], minChoices := 2
    maxChoices := some 2, current := 0 }

/-- A constrained-navigation example state: 30 items, item 26 selected,
`maxChoices = 1` already reached. -/
def mFull : PageManager Nat :=
  { array := List.range 30, selected := [(26, 26)], minChoices := 0
    maxChoices := some 1, current := 0 }

/-- A constrained-navigation example state with an empty selection
(`maxChoices = 0`). -/
def mEmptySel : PageManager Nat :=
  { array := List.range 30, selected := [], minChoices := 0
    maxChoices := some 0, current := 0 }

/-- The empty-collection example state. -/
def mNil : PageManager Nat :=
  { array := [], selected := [], minChoices := 0
    maxChoices := none, current := 0 }

/-! ### Arithmetic helper lemmas -/

/-- `jsCeilDiv` is the rational ceiling of the quotient, for nonzero
divisors: it faithfully models `Math.ceil(a / b)`. -/
theorem floor_intCast_div (c : Int) {d : Int} (hd : 0 < d) :
    ⌊(c : ℚ) / (d : ℚ)⌋ = c / d := by
  have h2 : ((d.toNat : ℕ) : ℤ) = d := by omega
  have h1 : ((d.toNat : ℕ) : ℚ) = (d : ℚ) := by exact_mod_cast h2
  rw [← h1, Rat.floor_intCast_div_natCast, h2]

theorem jsCeilDiv_eq_ceil (a b : Int) (hb : b ≠ 0) :
    jsCeilDiv a b = ⌈(a : ℚ) / (b : ℚ)⌉ := by
  rcases lt_or_gt_of_ne hb with hneg | hpos
  · rw [jsCeilDiv, if_neg (by omega)]
    have hcast : (((-b : Int)) : ℚ) = -(b : ℚ) := by push_cast; ring
    have hq : (a : ℚ) / (b : ℚ) = -((a : ℚ) / (((-b : Int)) : ℚ)) := by
      rw [hcast, div_neg, neg_neg]
    rw [hq, Int.ceil_neg, floor_intCast_div a (by omega)]
  · rw [jsCeilDiv, if_pos (by omega)]
    have hq : ⌈(a : ℚ) / (b : ℚ)⌉ = -⌊-((a : ℚ) / (b : ℚ))⌋ := by
      rw [Int.floor_neg, neg_neg]
    have hcast : -((a : ℚ) / (b : ℚ)) = (((-a : Int)) : ℚ) / (b : ℚ) := by
      push_cast
      ring
    rw [hq, hcast, floor_intCast_div (-a) hpos]

/-- `jsCeilDiv` at the page capacity, in integer-division form. -/
theorem jsCeilDiv_25 (a : Int) : jsCeilDiv a 25 = (a + 24) / 25 := by
  rw [jsCeilDiv, if_pos (by omega)]
  omega

/-- The ceil-then-correct computation used by the constrained navigation
branches equals floor division by the page capacity. -/
theorem pageFromIndex_eq (i : Int) : pageFromIndex i = i / 25 := by
  unfold pageFromIndex pageLen
  by_cases h : (25 : Int) ∣ i
  · rw [if_neg (by simpa using Int.tmod_eq_zero_of_dvd h), jsCeilDiv_25]
    omega
  · rw [if_pos (by simpa using fun hz => h (Int.dvd_of_tmod_eq_zero hz)),
      jsCeilDiv_25]
    omega

/-- The non-carry `max` in integer-division form. -/
theorem max_of_not_carry {α : Type} (m : PageManager α)
    (h : m.carrySelected = false) :
    m.max = ((m.array.length : Int) + 24) / 25 - 1 := by
  rw [PageManager.max, if_pos (by simp [h]), show pageLen = (25 : Int) from rfl,
    jsCeilDiv_25]

/-! ### List helper lemmas -/

theorem tagFrom_length {α : Type} (s : Int) (l : List α) :
    (tagFrom s l).length = l.length := by
  induction l generalizing s with
  | nil => rfl
  | cons x xs ih => simp [tagFrom, ih]

theorem tagFrom_append {α : Type} (s : Int) (a b : List α) :
    tagFrom s (a ++ b) = tagFrom s a ++ tagFrom (s + a.length) b := by
  induction a generalizing s with
  | nil => simp [tagFrom]
  | cons x xs ih =>
    simp only [List.cons_append, tagFrom, List.length_cons, List.append_eq, ih]
    have harg : s + 1 + (xs.length : Int) = s + (((xs.length + 1 : ℕ)) : Int) := by
      push_cast
      ring
    rw [harg]

/-- `jsSlice` with a nonnegative start and window is plain drop-and-take. -/
theorem jsSlice_of_nonneg {α : Type} (l : List α) (s c : Int)
    (hs : 0 ≤ s) (hc : 0 ≤ c) :
    jsSlice l s (s + c) = (l.drop s.toNat).take c.toNat := by
  simp only [jsSlice]
  rw [if_neg (by omega), if_neg (by omega)]
  rcases le_or_lt s (l.length : Int) with hn | hn
  · rw [min_eq_left hn]
    rcases le_or_lt (s + c) (l.length : Int) with hcn | hcn
    · rw [min_eq_left hcn]
      congr 1
      omega
    · rw [min_eq_right (by omega)]
      have hd := List.length_drop s.toNat l
      have e1 : (l.drop s.toNat).take (((l.length : Int) - s).toNat)
          = l.drop s.toNat := List.take_of_length_le (by omega)
      have e2 : (l.drop s.toNat).take c.toNat
          = l.drop s.toNat := List.take_of_length_le (by omega)
      rw [e1, e2]
  · have e1 : l.drop ((min s (l.length : Int))).toNat = [] :=
      List.drop_eq_nil_of_le (by omega)
    have e2 : l.drop s.toNat = [] := List.drop_eq_nil_of_le (by omega)
    rw [e1, e2]
    simp

/-- `jsSlice` from `0` with a nonnegative end is plain take. -/
theorem jsSlice_zero {α : Type} (l : List α) (e : Int) (he : 0 ≤ e) :
    jsSlice l 0 e = l.take e.toNat := by
  have := jsSlice_of_nonneg l 0 e le_rfl he
  simpa using this

theorem listMin?_eq_none {l : List Int} : listMin? l = none ↔ l = [] := by
  cases l <;> simp [listMin?]

theorem listMax?_eq_none {l : List Int} : listMax? l = none ↔ l = [] := by
  cases l <;> simp [listMax?]

theorem listMin?_mem {l : List Int} {k : Int} (h : listMin? l = some k) :
    k ∈ l := by
  induction l with
  | nil => simp [listMin?] at h
  | cons x xs ih =>
    rw [listMin?] at h
    rcases hxs : listMin? xs with _ | y
    · rw [hxs] at h
      simp at h
      simp [h]
    · rw [hxs] at h
      simp at h
      rcases le_total x y with hle | hle

      · rw [min_eq_left hle] at h
        simp [h]
      · rw [min_eq_right hle] at h
        exact List.mem_cons_of_mem _ (ih (by rw [hxs, h]))

theorem listMax?_mem {l : List Int} {k : Int} (h : listMax? l = some k) :
    k ∈ l := by
  induction l with
  | nil => simp [listMax?] at h
  | cons x xs ih =>
    rw [listMax?] at h
    rcases hxs : listMax? xs with _ | y
    · rw [hxs] at h
      simp at h
      simp [h]
    · rw [hxs] at h
      simp at h
      rcases le_total y x with hle | hle
      · rw [max_eq_left hle] at h
        simp [h]
      · rw [max_eq_right hle] at h
        exact List.mem_cons_of_mem _ (ih (by rw [hxs, h]))

/-! ### Frame helper lemmas: navigation touches only `current` -/

theorem first_frame {α : Type} (m : PageManager α) :
    (m.first).array = m.array ∧ (m.first).selected = m.selected ∧
    (m.first).minChoices = m.minChoices ∧ (m.first).maxChoices = m.maxChoices := by
  simp only [PageManager.first]
  split
  · exact ⟨rfl, rfl, rfl, rfl⟩
  · split <;> exact ⟨rfl, rfl, rfl, rfl⟩

theorem previous_frame {α : Type} (m : PageManager α) :
    (m.previous).array = m.array ∧ (m.previous).selected = m.selected ∧
    (m.previous).minChoices = m.minChoices ∧ (m.previous).maxChoices = m.maxChoices := by
  simp only [PageManager.previous]
  split
  · exact ⟨rfl, rfl, rfl, rfl⟩
  · split <;> exact ⟨rfl, rfl, rfl, rfl⟩

theorem next_frame {α : Type} (m : PageManager α) :
    (m.next).array = m.array ∧ (m.next).selected = m.selected ∧
    (m.next).minChoices = m.minChoices ∧ (m.next).maxChoices = m.maxChoices := by
  simp only [PageManager.next]
  split
  · exact ⟨rfl, rfl, rfl, rfl⟩
  · split <;> exact ⟨rfl, rfl, rfl, rfl⟩

theorem last_frame {α : Type} (m : PageManager α) :
    (m.last).array = m.array ∧ (m.last).selected = m.selected ∧
    (m.last).minChoices = m.minChoices ∧ (m.last).maxChoices = m.maxChoices := by
  simp only [PageManager.last]
  split
  · exact ⟨rfl, rfl, rfl, rfl⟩
  · split <;> exact ⟨rfl, rfl, rfl, rfl⟩

/-- `max` depends only on the array, the selection and `minChoices`. -/
theorem max_congr {α : Type} (m m' : PageManager α)
    (h1 : m'.array = m.array) (h2 : m'.selected = m.selected)
    (h3 : m'.minChoices = m.minChoices) : m'.max = m.max := by
  rw [PageManager.max, PageManager.max, PageManager.carrySelected,
    PageManager.carrySelected, h1, h2, h3]

/-! ### Claim theorems -/

/-- Claim C8: the four navigation operations `first`, `previous`, `next`,
`last` never mutate the item collection, the selection set, `minChoices` or
`maxChoices`; the only field they may change is `current`. -/
theorem nav_frame {α : Type} (m : PageManager α) :
    ((m.first).array = m.array ∧ (m.first).selected = m.selected ∧
      (m.first).minChoices = m.minChoices ∧ (m.first).maxChoices = m.maxChoices) ∧
    ((m.previous).array = m.array ∧ (m.previous).selected = m.selected ∧
      (m.previous).minChoices = m.minChoices ∧ (m.previous).maxChoices = m.maxChoices) ∧
    ((m.next).array = m.array ∧ (m.next).selected = m.selected ∧
      (m.next).minChoices = m.minChoices ∧ (m.next).maxChoices = m.maxChoices) ∧
    ((m.last).array = m.array ∧ (m.last).selected = m.selected ∧
      (m.last).minChoices = m.minChoices ∧ (m.last).maxChoices = m.maxChoices) :=
  ⟨first_frame m, previous_frame m, next_frame m, last_frame m⟩

/-- Claim C7, counterexample: `getPage` does NOT clamp a negative requested
page index up to `0`.  On a 30-item non-carry state, page `-1` yields the
empty sequence while the clamped index `0` yields the full first page. -/
theorem getPage_clamp_cex :
    mPlain.getPage (some (-1)) ≠ mPlain.getPage (some 0) := by
  have e1 : ((mPlain.getPage (some (-1))).toOption.getD []).length = 0 := by rfl
  have e2 : ((mPlain.getPage (some 0)).toOption.getD []).length = 25 := by rfl
  intro h
  rw [h, e2] at e1
  exact absurd e1 (by decide)

/-- Claim C7, amended: `getPage` clamps the requested index only from above,
to at most `maxPageIndex` (via `Math.min`); indices below `0` are passed
through unclamped; when the argument is omitted, `currentPageIndex` is
used. -/
theorem getPage_clamp_above {α : Type} (m : PageManager α) (p : Int) :
    m.getPage (some p) = m.getPage (some (min m.max p)) ∧
    m.getPage none = m.getPage (some m.current) := by
  constructor
  · simp only [PageManager.getPage, Option.getD_some]
    rw [← min_assoc, min_self]
  · rfl

/-- `jsSlice` of the empty list is empty. -/
theorem jsSlice_nil {α : Type} (s e : Int) : jsSlice ([] : List α) s e = [] := by
  simp [jsSlice]

/-- Claim C9: on an empty collection with an empty selection, `getPage()`
returns the empty sequence without raising, even though the `max` formula
evaluates to `-1`. -/
theorem empty_collection_getPage {α : Type} (m : PageManager α)
    (h1 : m.array = []) (h2 : m.selected = []) :
    m.getPage none = .ok ([] : List (Int × α)) ∧ m.max = -1 := by
  have hmax : m.max = -1 := by
    rw [PageManager.max]
    split
    · rw [h1]
      norm_num [jsCeilDiv, pageLen]
    · rw [h1, h2]
      norm_num [jsCeilDiv, pageLen]
  refine ⟨?_, hmax⟩
  rw [PageManager.getPage]
  split
  · simp [PageManager.getSlice, h1, jsSlice_nil, tagFrom]
  · have hpage : (min m.max (Option.getD none m.current)).toNat = 0 := by
      rw [hmax]
      simp only [Option.getD_none]
      omega
    simp only [h2, List.map_nil, hpage, walkStart]
    simp [PageManager.getSlice, PageManager.hasKey, h1, h2, jsSlice_nil,
      tagFrom, getEndIndex, pageLen]

/-- Claim C1: the derived `max` page index follows the ceiling formulas of
the specification: `ceil(L / 25) - 1` when not in carry mode, and
`ceil((L - s) / (25 - s)) - 1` in carry mode (where the JavaScript source
computes a real-number division, excluded at `s = 25` where it is `NaN`). -/
theorem max_formula {α : Type} (m : PageManager α)
    (hs : m.carrySelected = true → m.selected.length ≠ 25) :
    (m.carrySelected = false →
      m.max = ⌈(m.array.length : ℚ) / 25⌉ - 1) ∧
    (m.carrySelected = true →
      m.max = ⌈((m.array.length : ℚ) - (m.selected.length : ℚ)) /
        ((25 : ℚ) - (m.selected.length : ℚ))⌉ - 1) := by
  constructor
  · intro h
    rw [PageManager.max, if_pos (by simp [h]),
      jsCeilDiv_eq_ceil _ _ (by norm_num [pageLen])]
    norm_num [pageLen]
  · intro h
    have hb : pageLen - (m.selected.length : Int) ≠ 0 := by
      have := hs h
      simp only [pageLen]
      omega
    rw [PageManager.max, if_neg (by simp [h]), jsCeilDiv_eq_ceil _ _ hb]
    simp only [pageLen]
    push_cast
    ring_nf

/-- Without free page movement, carry mode is off. -/
theorem not_carry_of_not_free {α : Type} (m : PageManager α)
    (h : m.hasFreePageMovement = false) : m.carrySelected = false := by
  simp only [PageManager.hasFreePageMovement, Bool.or_eq_false_iff] at h
  exact h.1.1

/-- A constrained navigation target page lies in `[0, max]` whenever the
landed-on key is a valid collection index. -/
theorem constrained_target_bounds {α : Type} (m : PageManager α) (k : Int)
    (hc : m.carrySelected = false) (hk0 : 0 ≤ k)
    (hkL : k < (m.array.length : Int)) :
    0 ≤ pageFromIndex k ∧ pageFromIndex k ≤ m.max := by
  rw [pageFromIndex_eq, max_of_not_carry m hc]
  omega

/-- Claim C5: when no valid target page exists, each navigation operation
leaves the entire state unchanged (the operations are total functions and
never raise): with constrained movement, `first`/`last` are no-ops on an
empty selection, `previous` is a no-op when no selected key lies before the
current page start, and `next` when none lies at or past the current page
end. -/
theorem nav_noop_without_target {α : Type} (m : PageManager α)
    (h : m.hasFreePageMovement = false) :
    (m.selected = [] → m.first = m ∧ m.last = m) ∧
    (m.selected.filter (fun p => decide (p.1 < m.current * pageLen)) = [] →
      m.previous = m) ∧
    (m.selected.filter (fun p => decide (m.current * pageLen + pageLen ≤ p.1)) = [] →
      m.next = m) := by
  refine ⟨fun he => ⟨?_, ?_⟩, fun he => ?_, fun he => ?_⟩
  · simp [PageManager.first, h, he, listMin?]
  · simp [PageManager.last, h, he, listMax?]
  · simp [PageManager.previous, h, he, listMax?]
  · simp [PageManager.next, h, he, listMin?]

/-- Claim C4: with constrained movement, `first()` jumps to the page of the
smallest selected index, and the ceil-then-correct computation equals
`floor(smallestSelectedIndex / 25)` — the page that contains that index.
With no selection it is a no-op. -/
theorem first_constrained_floor {α : Type} (m : PageManager α)
    (h : m.hasFreePageMovement = false) :
    (m.selected = [] → m.first = m) ∧
    (∀ k, listMin? (m.selected.map Prod.fst) = some k →
      (m.first).current = k / 25 ∧
      (m.first).current * 25 ≤ k ∧ k < (m.first).current * 25 + 25) := by
  constructor
  · intro he
    simp [PageManager.first, h, he, listMin?]
  · intro k hk
    have he : (m.first).current = pageFromIndex k := by
      simp [PageManager.first, h, hk]
    rw [he, pageFromIndex_eq]
    refine ⟨rfl, ?_, ?_⟩ <;> omega

/-- Claim C6: the range invariant `0 ≤ current ≤ max` is preserved by each
of the four navigation operations, for states whose selected keys are valid
collection indices. -/
theorem current_range_preserved {α : Type} (m : PageManager α)
    (hkeys : ∀ p ∈ m.selected, 0 ≤ p.1 ∧ p.1 < (m.array.length : Int))
    (h0 : 0 ≤ m.current) (h1 : m.current ≤ m.max) :
    (0 ≤ (m.first).current ∧ (m.first).current ≤ (m.first).max) ∧
    (0 ≤ (m.previous).current ∧ (m.previous).current ≤ (m.previous).max) ∧
    (0 ≤ (m.next).current ∧ (m.next).current ≤ (m.next).max) ∧
    (0 ≤ (m.last).current ∧ (m.last).current ≤ (m.last).max) := by
  have hmax0 : 0 ≤ m.max := le_trans h0 h1
  have hf := first_frame m
  have hp := previous_frame m
  have hn := next_frame m
  have hl := last_frame m
  rw [max_congr m m.first hf.1 hf.2.1 hf.2.2.1,
    max_congr m m.previous hp.1 hp.2.1 hp.2.2.1,
    max_congr m m.next hn.1 hn.2.1 hn.2.2.1,
    max_congr m m.last hl.1 hl.2.1 hl.2.2.1]
  by_cases hF : m.hasFreePageMovement
  · have c1 : (m.first).current = 0 := by simp [PageManager.first, hF]
    have c2 : (m.previous).current = Max.max 0 (m.current - 1) := by
      simp [PageManager.previous, hF]
    have c3 : (m.next).current = min m.max (m.current + 1) := by
      simp [PageManager.next, hF]
    have c4 : (m.last).current = m.max := by simp [PageManager.last, hF]
    rw [c1, c2, c3, c4]
    exact ⟨⟨le_rfl, hmax0⟩, ⟨le_max_left _ _, max_le hmax0 (by omega)⟩,
      ⟨le_min hmax0 (by omega), min_le_left _ _⟩, ⟨hmax0, le_rfl⟩⟩
  · have hF' : m.hasFreePageMovement = false := by
      simpa using hF
    have hc := not_carry_of_not_free m hF'
    refine ⟨?_, ?_, ?_, ?_⟩
    · rcases hm : listMin? (m.selected.map Prod.fst) with _ | k
      · have he : m.first = m := by simp [PageManager.first, hF', hm]
        rw [he]
        exact ⟨h0, h1⟩
      · have he : (m.first).current = pageFromIndex k := by
          simp [PageManager.first, hF', hm]
        rw [he]
        obtain ⟨p, hpm, rfl⟩ := List.mem_map.mp (listMin?_mem hm)
        exact constrained_target_bounds m p.1 hc (hkeys p hpm).1 (hkeys p hpm).2
    · rcases hm : listMax?
          ((m.selected.filter (fun p => decide (p.1 < m.current * pageLen))).map
            Prod.fst) with _ | k
      · have he : m.previous = m := by simp [PageManager.previous, hF', hm]
        rw [he]
        exact ⟨h0, h1⟩
      · have he : (m.previous).current = pageFromIndex k := by
          simp [PageManager.previous, hF', hm]
        rw [he]
        obtain ⟨p, hpm, rfl⟩ := List.mem_map.mp (listMax?_mem hm)
        have hp' := List.mem_of_mem_filter hpm
        exact constrained_target_bounds m p.1 hc (hkeys p hp').1 (hkeys p hp').2
    · rcases hm : listMin?
          ((m.selected.filter (fun p => decide (m.current * pageLen + pageLen ≤ p.1))).map
            Prod.fst) with _ | k
      · have he : m.next = m := by simp [PageManager.next, hF', hm]
        rw [he]
        exact ⟨h0, h1⟩
      · have he : (m.next).current = pageFromIndex k := by
          simp [PageManager.next, hF', hm]
        rw [he]
        obtain ⟨p, hpm, rfl⟩ := List.mem_map.mp (listMin?_mem hm)
        have hp' := List.mem_of_mem_filter hpm
        exact constrained_target_bounds m p.1 hc (hkeys p hp').1 (hkeys p hp').2
    · rcases hm : listMax? (m.selected.map Prod.fst) with _ | k
      · have he : m.last = m := by simp [PageManager.last, hF', hm]
        rw [he]
        exact ⟨h0, h1⟩
      · have he : (m.last).current = pageFromIndex k := by
          simp [PageManager.last, hF', hm]
        rw [he]
        obtain ⟨p, hpm, rfl⟩ := List.mem_map.mp (listMax?_mem hm)
        exact constrained_target_bounds m p.1 hc (hkeys p hpm).1 (hkeys p hpm).2

/-! ### Page-content lemmas -/

/-- Unfolding of `getPage` in non-carry mode. -/
theorem getPage_not_carry_eq {α : Type} (m : PageManager α) (p : Option Int)
    (hc : m.carrySelected = false) :
    m.getPage p = .ok (m.getSlice ((min m.max (p.getD m.current)) * pageLen)
      ((min m.max (p.getD m.current)) * pageLen + pageLen) false) := by
  rw [PageManager.getPage]
  split
  · rfl
  · rename_i h
    rw [hc] at h
    simp at h

/-- Unfolding of `getPage` in carry mode. -/
theorem getPage_carry_eq {α : Type} (m : PageManager α) (p : Option Int)
    (hc : m.carrySelected = true) :
    m.getPage p =
      (let keys := m.selected.map Prod.fst
       let start := walkStart keys (min m.max (p.getD m.current)).toNat
       let e := getEndIndex start keys
       let output := m.selected ++ m.getSlice start e true
       if pageLen < (output.length : Int) then
         .error ("Generated page exceeds set page length.")
       else
         .ok output) := by
  rw [PageManager.getPage]
  split
  · rename_i h
    rw [hc] at h
    simp at h
  · rfl

/-- The selected-removing slice is truncated to the remaining capacity and
contains no selected key. -/
theorem getSlice_true_shape {α : Type} (m : PageManager α) (S E : Int)
    (hs : m.selected.length ≤ 25) :
    (m.getSlice S E true).length ≤ 25 - m.selected.length ∧
    ∀ q ∈ m.getSlice S E true, m.hasKey q.1 = false := by
  have he : (0 : Int) ≤ pageLen - (m.selected.length : Int) := by
    simp only [pageLen]
    omega
  have hred : m.getSlice S E true =
      jsSlice ((tagFrom S (jsSlice m.array S E)).filter (fun p => ¬ m.hasKey p.1))
        0 (pageLen - (m.selected.length : Int)) := rfl
  constructor
  · rw [hred, jsSlice_zero _ _ he, List.length_take]
    simp only [pageLen]
    omega
  · intro q hq
    rw [hred, jsSlice_zero _ _ he] at hq
    have hq2 := List.take_subset _ _ hq
    have hq3 := List.of_mem_filter hq2
    simpa using hq3

/-- The capacity check in carry mode never fires when the selection fits in
one page. -/
theorem carry_if_ok {α : Type} (m : PageManager α) (S E : Int)
    (hs : m.selected.length ≤ 25) :
    ∃ rest,
      (if pageLen < (((m.selected ++ m.getSlice S E true)).length : Int) then
         (Except.error ("Generated page exceeds set page length.") :
           Except String (List (Int × α)))
       else .ok (m.selected ++ m.getSlice S E true)) = .ok (m.selected ++ rest)
      ∧ (∀ q ∈ rest, m.hasKey q.1 = false)
      ∧ (m.selected ++ rest).length ≤ 25 := by
  obtain ⟨hlen, hmem⟩ := getSlice_true_shape m S E hs
  refine ⟨m.getSlice S E true, ?_, hmem, ?_⟩
  · rw [if_neg]
    rw [List.length_append]
    simp only [pageLen]
    omega
  · rw [List.length_append]
    omega

/-- In carry mode with the selection fitting in one page, every page is the
selection (in insertion order) followed by unselected entries, within the
page capacity. -/
theorem carry_page_shape {α : Type} (m : PageManager α) (p : Option Int)
    (hc : m.carrySelected = true) (hs : m.selected.length ≤ 25) :
    ∃ rest, m.getPage p = .ok (m.selected ++ rest)
      ∧ (∀ q ∈ rest, m.hasKey q.1 = false)
      ∧ (m.selected ++ rest).length ≤ 25 := by
  rw [getPage_carry_eq m p hc]
  exact carry_if_ok m _ _ hs

/-- Claim C2: in carry mode (selection fitting the page capacity), every
page returned by `getPage` starts with all currently selected pairs in
insertion order, continues with only not-yet-selected entries, and has
length at most `25`. -/
theorem carry_page_structure {α : Type} (m : PageManager α)
    (hc : m.carrySelected = true) (hs : m.selected.length ≤ 25)
    (p : Option Int) :
    ∃ rest, m.getPage p = .ok (m.selected ++ rest)
      ∧ (∀ q ∈ rest, m.hasKey q.1 = false)
      ∧ (m.selected ++ rest).length ≤ 25 :=
  carry_page_shape m p hc hs

/-- Claim C10: whenever the selection size is at most the page capacity, the
`Generated page exceeds set page length` error branch of `getPage` is
unreachable — the result is always `ok`. -/
theorem page_error_unreachable {α : Type} (m : PageManager α)
    (hs : m.selected.length ≤ 25) (p : Option Int) :
    ∃ l, m.getPage p = .ok l := by
  rcases hb : m.carrySelected with _ | _
  · exact ⟨_, getPage_not_carry_eq m p hb⟩
  · obtain ⟨rest, heq, -, -⟩ := carry_page_shape m p hb hs
    exact ⟨_, heq⟩

/-- Pointwise-equal functions give equal `flatMap`s. -/
theorem flatMap_congr_mem {α β : Type} {l : List α} {f g : α → List β}
    (h : ∀ a ∈ l, f a = g a) : l.flatMap f = l.flatMap g := by
  induction l with
  | nil => rfl
  | cons x xs ih =>
    rw [List.flatMap_cons, List.flatMap_cons, h x (List.mem_cons_self x xs),
      ih (fun a ha => h a (List.mem_cons_of_mem x ha))]

/-- Concatenating the tagged 25-chunks of a list reconstructs its prefix. -/
theorem cover_chunks {α : Type} (l : List α) (P : Nat) :
    (List.range P).flatMap
      (fun k => tagFrom ((k : Int) * pageLen) ((l.drop (25 * k)).take 25))
    = tagFrom 0 (l.take (25 * P)) := by
  induction P with
  | zero => simp [tagFrom]
  | succ n ih =>
    rw [List.range_succ, List.flatMap_append, ih,
      show 25 * (n + 1) = 25 * n + 25 from by ring, List.take_add,
      tagFrom_append]
    simp only [List.flatMap_cons, List.flatMap_nil, List.append_nil]
    congr 1
    rcases le_or_lt (25 * n) l.length with hle | hlt
    · congr 1
      simp only [List.length_take, pageLen]
      push_cast
      omega
    · have hd : l.drop (25 * n) = [] := List.drop_eq_nil_of_le (by omega)
      rw [hd]
      simp [tagFrom]

/-- In non-carry mode, a valid page is the tagged contiguous 25-chunk of the
collection. -/
theorem noncarry_page_eq {α : Type} (m : PageManager α)
    (hc : m.carrySelected = false) (k : Nat) (hk : (k : Int) ≤ m.max) :
    m.getPage (some (k : Int)) =
      .ok (tagFrom ((k : Int) * pageLen) ((m.array.drop (25 * k)).take 25)) := by
  rw [getPage_not_carry_eq m (some (k : Int)) hc]
  simp only [Option.getD_some]
  rw [min_eq_right hk]
  congr 1
  have h1 : m.getSlice ((k : Int) * pageLen) ((k : Int) * pageLen + pageLen) false
      = tagFrom ((k : Int) * pageLen)
          (jsSlice m.array ((k : Int) * pageLen) ((k : Int) * pageLen + pageLen)) := rfl
  rw [h1, jsSlice_of_nonneg m.array _ pageLen
    (by simp only [pageLen]; positivity) (by norm_num [pageLen])]
  have e1 : (((k : Int) * pageLen)).toNat = 25 * k := by
    simp only [pageLen]
    omega
  have e2 : (pageLen).toNat = 25 := rfl
  rw [e1, e2]

/-- Claim C3: in non-carry mode, concatenating the contents of pages
`0 .. maxPageIndex` in order yields exactly the original collection, each
element once and tagged with its original index. -/
theorem noncarry_pages_cover {α : Type} (m : PageManager α)
    (hc : m.carrySelected = false) :
    (List.range ((m.max + 1).toNat)).flatMap
      (fun k => match m.getPage (some (k : Int)) with
                | .ok l => l
                | .error _ => [])
    = tagFrom 0 m.array := by
  have hmax := max_of_not_carry m hc
  have hP : m.array.length ≤ 25 * (m.max + 1).toNat := by omega
  have hstep : (List.range ((m.max + 1).toNat)).flatMap
      (fun k => match m.getPage (some (k : Int)) with
                | .ok l => l
                | .error _ => [])
      = (List.range ((m.max + 1).toNat)).flatMap
        (fun k => tagFrom ((k : Int) * pageLen) ((m.array.drop (25 * k)).take 25)) := by
    apply flatMap_congr_mem
    intro k hkr
    rw [List.mem_range] at hkr
    have hk : (k : Int) ≤ m.max := by omega
    rw [noncarry_page_eq m hc k hk]
  rw [hstep, cover_chunks, List.take_of_length_le hP]

/-! ### Witnesses: the claim theorems applied at concrete states -/

/-- Witness for C1 at the carry-mode example state. -/
theorem max_formula_holds :
    (mCarry.carrySelected = true → mCarry.selected.length ≠ 25) ∧
    ((mCarry.carrySelected = false →
        mCarry.max = ⌈(mCarry.array.length : ℚ) / 25⌉ - 1) ∧
      (mCarry.carrySelected = true →
        mCarry.max = ⌈((mCarry.array.length : ℚ) - (mCarry.selected.length : ℚ)) /
          ((25 : ℚ) - (mCarry.selected.length : ℚ))⌉ - 1)) :=
  ⟨by decide, max_formula mCarry (by decide)⟩

/-- Witness for C2 at the carry-mode example state. -/
theorem carry_page_structure_holds :
    (mCarry.carrySelected = true ∧ mCarry.selected.length ≤ 25) ∧
    (∃ rest, mCarry.getPage none = .ok (mCarry.selected ++ rest)
      ∧ (∀ q ∈ rest, mCarry.hasKey q.1 = false)
      ∧ (mCarry.selected ++ rest).length ≤ 25) :=
  ⟨⟨by decide, by decide⟩,
    carry_page_structure mCarry (by decide) (by decide) none⟩

/-- Witness for C3 at the two-page non-carry example state. -/
theorem noncarry_pages_cover_holds :
    mPlain.carrySelected = false ∧
    ((List.range ((mPlain.max + 1).toNat)).flatMap
        (fun k => match mPlain.getPage (some (k : Int)) with
                  | .ok l => l
                  | .error _ => [])
      = tagFrom 0 mPlain.array) :=
  ⟨by decide, noncarry_pages_cover mPlain (by decide)⟩

/-- Witness for C4 at the constrained example state (selected index 26 on a
30-item collection; `first()` lands on page 1). -/
theorem first_constrained_floor_holds :
    mFull.hasFreePageMovement = false ∧
    ((mFull.selected = [] → mFull.first = mFull) ∧
      (∀ k, listMin? (mFull.selected.map Prod.fst) = some k →
        (mFull.first).current = k / 25 ∧
        (mFull.first).current * 25 ≤ k ∧ k < (mFull.first).current * 25 + 25)) :=
  ⟨by decide, first_constrained_floor mFull (by decide)⟩

/-- Witness for C5 at a constrained state with an empty selection. -/
theorem nav_noop_without_target_holds :
    mEmptySel.hasFreePageMovement = false ∧
    ((mEmptySel.selected = [] →
        mEmptySel.first = mEmptySel ∧ mEmptySel.last = mEmptySel) ∧
      (mEmptySel.selected.filter
          (fun p => decide (p.1 < mEmptySel.current * pageLen)) = [] →
        mEmptySel.previous = mEmptySel) ∧
      (mEmptySel.selected.filter
          (fun p => decide (mEmptySel.current * pageLen + pageLen ≤ p.1)) = [] →
        mEmptySel.next = mEmptySel)) :=
  ⟨by decide, nav_noop_without_target mEmptySel (by decide)⟩

/-- Witness for C6 at the constrained example state. -/
theorem current_range_preserved_holds :
    ((∀ p ∈ mFull.selected, 0 ≤ p.1 ∧ p.1 < (mFull.array.length : Int)) ∧
      0 ≤ mFull.current ∧ mFull.current ≤ mFull.max) ∧
    ((0 ≤ (mFull.first).current ∧ (mFull.first).current ≤ (mFull.first).max) ∧
      (0 ≤ (mFull.previous).current ∧
        (mFull.previous).current ≤ (mFull.previous).max) ∧
      (0 ≤ (mFull.next).current ∧ (mFull.next).current ≤ (mFull.next).max) ∧
      (0 ≤ (mFull.last).current ∧ (mFull.last).current ≤ (mFull.last).max)) :=
  ⟨⟨by decide, by decide, by decide⟩,
    current_range_preserved mFull (by decide) (by decide) (by decide)⟩

/-- Witness for C9 at the empty-collection state. -/
theorem empty_collection_getPage_holds :
    (mNil.array = [] ∧ mNil.selected = []) ∧
    (mNil.getPage none = .ok ([] : List (Int × Nat)) ∧ mNil.max = -1) :=
  ⟨⟨rfl, rfl⟩, empty_collection_getPage mNil rfl rfl⟩

/-- Witness for C10 at the carry-mode example state. -/
theorem page_error_unreachable_holds :
    mCarry.selected.length ≤ 25 ∧ (∃ l, mCarry.getPage none = .ok l) :=
  ⟨by decide, page_error_unreachable mCarry (by decide) none⟩

end ChoiceMenu
